import Mathlib

/-!
Verification of the adaptive integer-collection layer of
`src/relstorage/_compat.py`.

The module selects, once at process start, concrete backings for
OID/TID maps, sets and lists, and exposes set-algebra helpers over
whichever backing was chosen.  Two branches exist:

* the native-BTrees branch (lines 102-119): `BTrees.family64.II.BTree`
  and friends — the container itself is a C extension outside this
  repository, so those containers are modelled as key-sorted
  association lists, while the wrapper functions written in
  `_compat.py` (`OidSet_discard`, `OidObjectMap_max_key`) are embedded
  from the source;
* the plain-Python fallback branch (lines 120-143): `dict` / `set` with
  the helper functions written out in the source.  A CPython `dict` is
  modelled as an association list in insertion order (Python 3.7+
  iteration semantics); a Python `set` is modelled as a `Finset ℕ`.

The array capability probe (lines 209-220) and the `OidList` selection
(lines 222-226) are embedded as functions of the runtime facts they
branch on, with a raised exception made explicit.
-/

/- ### Capability probe and OidList selection (lines 209-226) -/

/-- The element code chosen by the 64-bit `array.array` probe:
`Q` (strictly 64-bit unsigned) or `L` (native unsigned long). -/
inductive ArrayCode : Type
  | Q
  | L
deriving DecidableEq

/-- Outcome of evaluating a Python expression: a value, or a raised
exception that propagates to the caller. -/
inductive PyOutcome (α : Type) : Type
  | ok (val : α)
  | raised
deriving DecidableEq

/-- Lines 209-220.  The probe for a native unsigned 64-bit
`array.array` element type.  `qCtor` is the outcome of constructing
`array.array('Q', [1])`; `lCtor` is the outcome of constructing
`array.array('L', [1])` together with its `itemsize` on success.
The source wraps only the first construction in `try/except ValueError`;
the second construction happens inside the handler, so its own failure
is not caught and propagates.  The result is `some` code when a 64-bit
array constructor was bound (`_64bit_array` truthy) and `none` when the
probe fell through leaving `_64bit_array = None`. -/
def _64bit_array (qCtor : PyOutcome Unit) (lCtor : PyOutcome Nat) :
    PyOutcome (Option ArrayCode) :=
  match qCtor with
  | .ok _ => .ok (some ArrayCode.Q)
  | .raised =>
    match lCtor with
    | .ok itemsize => .ok (if 8 ≤ itemsize then some ArrayCode.L else none)
    | .raised => .raised

/-- The two possible backings for `OidList` / `TidList`. -/
inductive OidListKind : Type
  | packedArray64
  | pyList
deriving DecidableEq

/-- Lines 222-225: `OidList = _64bit_array if (_64bit_array and not PYPY)
else list`.  `arr` is the value `_64bit_array` holds after the probe
(`none` models Python `None`, which is falsy), `pypy` is the `PYPY`
flag from line 78. -/
def OidList (arr : Option ArrayCode) (pypy : Bool) : OidListKind :=
  if arr.isSome && !pypy then OidListKind.packedArray64 else OidListKind.pyList

/-- The constant `maxint` of `BTrees.family64` (external to this
repository): that family stores keys and values as signed 64-bit
integers (C `long long`), so its `maxint` is the largest signed 64-bit
value, `2^63 - 1`. -/
def BTrees_family64_maxint : Nat := 2 ^ 63 - 1

/-- Line 227: `MAX_TID = BTrees.family64.maxint`. -/
def MAX_TID : Nat := BTrees_family64_maxint

/- ### Theorems for claims C7, C8, C9 -/

/-- C7: `OidList` is the packed fixed-width 64-bit array type if and
only if a 64-bit unsigned array element type was detected and the
process is not running on PyPy; in every other case it is the generic
dynamic list. -/
theorem OidList_packed_iff :
    ∀ (arr : Option ArrayCode) (pypy : Bool),
      (OidList arr pypy = OidListKind.packedArray64 ↔ arr.isSome = true ∧ pypy = false) ∧
      (OidList arr pypy = OidListKind.pyList ↔ ¬(arr.isSome = true ∧ pypy = false)) := by
  intro arr pypy
  cases arr <;> cases pypy <;> simp [OidList]

/-- C8 counterexample: the probe does not absorb every failure.  When
the construction of the strictly-64-bit candidate raises and then the
construction of the native-unsigned-long candidate raises as well, the
exception of the second construction happens inside the `except` handler
and propagates to the caller instead of resulting in a fallback. -/
theorem _64bit_array_propagates :
    _64bit_array PyOutcome.raised PyOutcome.raised = PyOutcome.raised := rfl

/-- C8 (amended): the probe tries the strictly-64-bit code first and on
success binds it; a failure of that first construction is absorbed and
the native-unsigned-long code is tried, accepted only when its item
width is at least 8 bytes and otherwise leaving the probe empty (which
yields the dynamic-list backing) — but a failure of the second
construction itself, happening inside the handler, propagates. -/
theorem _64bit_array_spec :
    (∀ lCtor : PyOutcome Nat,
       _64bit_array (PyOutcome.ok ()) lCtor = PyOutcome.ok (some ArrayCode.Q)) ∧
    (∀ itemsize : Nat, 8 ≤ itemsize →
       _64bit_array PyOutcome.raised (PyOutcome.ok itemsize) =
         PyOutcome.ok (some ArrayCode.L)) ∧
    (∀ itemsize : Nat, itemsize < 8 →
       _64bit_array PyOutcome.raised (PyOutcome.ok itemsize) = PyOutcome.ok none) ∧
    (_64bit_array PyOutcome.raised PyOutcome.raised = PyOutcome.raised) := by
  refine ⟨fun lCtor => rfl, fun n hn => ?_, fun n hn => ?_, rfl⟩
  · simp [_64bit_array, hn]
  · simp [_64bit_array, Nat.not_le_of_lt hn]

/-- C8 witness: the amended probe behaviour evaluated at concrete
outcomes (item size 8, then item size 4). -/
theorem _64bit_array_spec_witness :
    _64bit_array PyOutcome.raised (PyOutcome.ok 8) = PyOutcome.ok (some ArrayCode.L) ∧
    _64bit_array PyOutcome.raised (PyOutcome.ok 4) = PyOutcome.ok none :=
  ⟨_64bit_array_spec.2.1 8 (by decide), _64bit_array_spec.2.2.1 4 (by decide)⟩

/-- C9 counterexample: `MAX_TID` is `BTrees.family64.maxint`, the
largest *signed* 64-bit integer, not the largest unsigned 64-bit
integer `2^64 - 1`. -/
theorem MAX_TID_ne_unsigned_max : MAX_TID ≠ 2 ^ 64 - 1 := by decide

/-- C9 (amended): `MAX_TID` equals the maximum of the signed 64-bit
range used by the `BTrees.family64` containers, `2^63 - 1`; it is
representable in 64 bits but is not `2^64 - 1`. -/
theorem MAX_TID_value : MAX_TID = 2 ^ 63 - 1 ∧ MAX_TID < 2 ^ 64 := by decide

/- ### The plain-Python fallback backing (lines 120-143) -/

/-- Keys of a Python `dict` modelled as an association list, in
iteration order (CPython 3.7+ dicts iterate in insertion order). -/
def dictKeys (d : List (Nat × Nat)) : List Nat := d.map Prod.fst

/-- Python `d.get(k)` on the modelled dict: the entry stored for `k`,
if any. -/
def dictGet : List (Nat × Nat) → Nat → Option Nat
  | [], _ => none
  | (k2, v) :: rest, k => if k2 = k then some v else dictGet rest k

/-- Python `d[k] = v` on the modelled dict: an existing key keeps its
position and gets the new value; a new key is appended at the end. -/
def dictSet : List (Nat × Nat) → Nat → Nat → List (Nat × Nat)
  | [], k, v => [(k, v)]
  | (k2, v2) :: rest, k, v =>
    if k2 = k then (k, v) :: rest else (k2, v2) :: dictSet rest k v

/-- Lines 124-127: the fallback `OidTMap_difference(c1, c2)` copies
`c1` and builds `{k: c1[k] for k in set(c1) - set(c2)}` — the entries
of `c1` whose key is not a key of `c2`, values taken from `c1`.
(The iteration order of a Python `set` is unspecified; the model keeps
the order of `c1`, and nothing proved below depends on that order.) -/
def OidTMap_difference (c1 c2 : List (Nat × Nat)) : List (Nat × Nat) :=
  c1.filter fun kv => decide (kv.1 ∉ dictKeys c2)

/-- Lines 129-130: the fallback `OidTMap_multiunion(seq)` is
`set().union(*seq)`, the union of all input sets. -/
def OidTMap_multiunion (seq : List (Finset ℕ)) : Finset ℕ :=
  seq.foldl (fun acc s => acc ∪ s) ∅

/-- Lines 135-136: the fallback `OidSet_difference(c1, c2)` is
`set(c1) - set(c2)`. -/
def OidSet_difference (c1 c2 : Finset ℕ) : Finset ℕ := c1 \ c2

/-- Line 138: the fallback `OidSet_discard` is `set.discard`: remove
the value if present, no error if absent. -/
def OidSet_discard (s : Finset ℕ) (v : ℕ) : Finset ℕ := s.erase v

/-- Lines 140-143: the fallback `OidObjectMap_max_key(mapping)` returns
`0` for an empty mapping and `max(iterkeys(mapping))` otherwise;
Python's `max` over a nonempty iterable folds the binary maximum. -/
def OidObjectMap_max_key (m : List (Nat × Nat)) : Nat :=
  match dictKeys m with
  | [] => 0
  | k :: ks => ks.foldl Nat.max k

/- ### Theorems for claims C3 and C10 -/

/-- C3: for both fallback difference operations, the result holds
exactly the keys/elements present in the first argument and not in the
second; difference of a collection with itself is empty and difference
with the empty collection is the identity.  (The operations build new
collections from copies; the model is pure, so the inputs are
unchanged by construction.) -/
theorem difference_spec :
    (∀ (A B : List (Nat × Nat)) (k : Nat),
       k ∈ dictKeys (OidTMap_difference A B) ↔ k ∈ dictKeys A ∧ k ∉ dictKeys B) ∧
    (∀ A : List (Nat × Nat), OidTMap_difference A A = []) ∧
    (∀ A : List (Nat × Nat), OidTMap_difference A [] = A) ∧
    (∀ (A B : Finset ℕ) (k : ℕ),
       k ∈ OidSet_difference A B ↔ k ∈ A ∧ k ∉ B) ∧
    (∀ A : Finset ℕ, OidSet_difference A A = ∅) ∧
    (∀ A : Finset ℕ, OidSet_difference A ∅ = A) := by
  refine ⟨fun A B k => ?_, fun A => ?_, fun A => ?_,
    fun A B k => Finset.mem_sdiff, fun A => Finset.sdiff_self A, fun A => Finset.sdiff_empty⟩
  · constructor
    · intro h
      rcases List.mem_map.mp h with ⟨kv, hkv, hfst⟩
      rcases List.mem_filter.mp hkv with ⟨hmem, hdec⟩
      have hnot := of_decide_eq_true hdec
      exact ⟨List.mem_map.mpr ⟨kv, hmem, hfst⟩, hfst ▸ hnot⟩
    · rintro ⟨hA, hB⟩
      rcases List.mem_map.mp hA with ⟨kv, hkv, hfst⟩
      refine List.mem_map.mpr ⟨kv, List.mem_filter.mpr ⟨hkv, decide_eq_true ?_⟩, hfst⟩
      exact hfst ▸ hB
  · refine List.filter_eq_nil_iff.mpr fun kv hkv => ?_
    simp only [decide_eq_true_eq, Decidable.not_not]
    exact List.mem_map.mpr ⟨kv, hkv, rfl⟩
  · refine List.filter_eq_self.mpr fun kv _ => ?_
    simp [dictKeys]

/-- A lookup in the fallback difference result: `none` when the key is
a key of the second argument, the first argument's stored value
otherwise. -/
theorem dictGet_difference (A B : List (Nat × Nat)) (k : Nat) :
    dictGet (OidTMap_difference A B) k =
      if k ∈ dictKeys B then none else dictGet A k := by
  induction A with
  | nil => simp [OidTMap_difference, dictGet]
  | cons kv rest ih =>
    obtain ⟨k2, v⟩ := kv
    by_cases hB : k2 ∈ dictKeys B
    · have h1 : OidTMap_difference ((k2, v) :: rest) B = OidTMap_difference rest B := by
        simp [OidTMap_difference, List.filter_cons, hB]
      rw [h1, ih]
      by_cases hk : k2 = k
      · subst hk
        simp [dictGet, hB]
      · simp [dictGet, hk]
    · have h1 : OidTMap_difference ((k2, v) :: rest) B =
          (k2, v) :: OidTMap_difference rest B := by
        simp [OidTMap_difference, List.filter_cons, hB]
      rw [h1]
      by_cases hk : k2 = k
      · subst hk
        simp [dictGet, hB]
      · simp only [dictGet, if_neg hk]
        exact ih

/-- C10: the fallback `OidTMap_difference` result is itself a
key-to-value map (unique keys are preserved), and every key it retains
is mapped to the value the first argument mapped it to: a lookup in the
result returns the first argument's value when the key is absent from
the second argument, and nothing otherwise. -/
theorem difference_values_spec :
    (∀ (A B : List (Nat × Nat)) (k : Nat),
       dictGet (OidTMap_difference A B) k =
         if k ∈ dictKeys B then none else dictGet A k) ∧
    (∀ A B : List (Nat × Nat),
       (dictKeys A).Nodup → (dictKeys (OidTMap_difference A B)).Nodup) := by
  refine ⟨dictGet_difference, fun A B h => ?_⟩
  have hsub : List.Sublist (OidTMap_difference A B) A := List.filter_sublist A
  exact h.sublist (hsub.map Prod.fst)

/-- C10 witness: the lookup characterisation and key uniqueness
evaluated on the concrete maps `{1: 10, 2: 20}` and `{2: 99}`. -/
theorem difference_values_spec_witness :
    dictGet (OidTMap_difference [(1, 10), (2, 20)] [(2, 99)]) 1 =
      (if 1 ∈ dictKeys [(2, 99)] then none else dictGet [(1, 10), (2, 20)] 1) ∧
    (dictKeys (OidTMap_difference [(1, 10), (2, 20)] [(2, 99)])).Nodup :=
  ⟨difference_values_spec.1 [(1, 10), (2, 20)] [(2, 99)] 1,
   difference_values_spec.2 [(1, 10), (2, 20)] [(2, 99)] (by decide)⟩

/- ### Theorems for claims C4 and C6 -/

/-- Membership in the left fold of unions: an element is in the fold
exactly when it is in the accumulator or in one of the folded sets. -/
theorem mem_foldl_union (seq : List (Finset ℕ)) :
    ∀ (acc : Finset ℕ) (x : ℕ),
      x ∈ seq.foldl (fun acc s => acc ∪ s) acc ↔ x ∈ acc ∨ ∃ s ∈ seq, x ∈ s := by
  induction seq with
  | nil => simp
  | cons t rest ih =>
    intro acc x
    simp only [List.foldl_cons, ih, Finset.mem_union, List.mem_cons]
    constructor
    · rintro ((h | h) | ⟨s, hs, hx⟩)
      · exact Or.inl h
      · exact Or.inr ⟨t, Or.inl rfl, h⟩
      · exact Or.inr ⟨s, Or.inr hs, hx⟩
    · rintro (h | ⟨s, (rfl | hs), hx⟩)
      · exact Or.inl (Or.inl h)
      · exact Or.inl (Or.inr hx)
      · exact Or.inr ⟨s, hs, hx⟩

/-- C4: the fallback `OidTMap_multiunion` returns the union of all the
input sets: it is empty for the empty sequence, the identity on a
one-element sequence, contains exactly the elements of some input set,
is invariant under permutation of the input sequence, and on a
three-element sequence equals the three-way union. -/
theorem multiunion_spec :
    OidTMap_multiunion [] = ∅ ∧
    (∀ A : Finset ℕ, OidTMap_multiunion [A] = A) ∧
    (∀ (seq : List (Finset ℕ)) (x : ℕ),
       x ∈ OidTMap_multiunion seq ↔ ∃ s ∈ seq, x ∈ s) ∧
    (∀ s t : List (Finset ℕ), s.Perm t → OidTMap_multiunion s = OidTMap_multiunion t) ∧
    (∀ A B C : Finset ℕ, OidTMap_multiunion [A, B, C] = A ∪ B ∪ C) := by
  refine ⟨rfl, fun A => ?_, fun seq x => ?_, fun s t hperm => ?_, fun A B C => ?_⟩
  · show ∅ ∪ A = A
    exact Finset.empty_union A
  · rw [OidTMap_multiunion, mem_foldl_union]
    simp
  · ext x
    rw [OidTMap_multiunion, OidTMap_multiunion, mem_foldl_union, mem_foldl_union]
    constructor
    · rintro (h | ⟨s2, hs, hx⟩)
      · exact Or.inl h
      · exact Or.inr ⟨s2, hperm.mem_iff.mp hs, hx⟩
    · rintro (h | ⟨s2, hs, hx⟩)
      · exact Or.inl h
      · exact Or.inr ⟨s2, hperm.mem_iff.mpr hs, hx⟩
  · show ∅ ∪ A ∪ B ∪ C = A ∪ B ∪ C
    rw [Finset.empty_union]

/-- C4 witness: permutation invariance applied to the concrete
sequences `[{3}, {1, 2}]` and `[{1, 2}, {3}]`. -/
theorem multiunion_spec_witness :
    OidTMap_multiunion [({3} : Finset ℕ), {1, 2}] = OidTMap_multiunion [{1, 2}, {3}] :=
  multiunion_spec.2.2.2.1 _ _ (List.Perm.swap ({1, 2} : Finset ℕ) {3} [])

/- ### The native-BTrees backing (lines 102-119), modelled -/

/-- Modelled from the spec: `BTrees.family64.II.TreeSet.remove(val)` —
the atomic ordered tree set is a C extension outside this repository;
the spec describes it as an ordered set whose `remove` deletes a
present member and raises `KeyError` for an absent one.  The set is
modelled as a duplicate-free list of its members. -/
def btRemove (s : List Nat) (v : Nat) : PyOutcome (List Nat) :=
  if v ∈ s then PyOutcome.ok (s.filter fun x => decide (x ≠ v)) else PyOutcome.raised

/-- Lines 110-114: the BTrees-branch `OidSet_discard(s, val)` calls
`s.remove(val)` and absorbs the `KeyError` raised for an absent value,
leaving the set unchanged in that case. -/
def OidSet_discard_bt (s : List Nat) (v : Nat) : List Nat :=
  match btRemove s v with
  | PyOutcome.ok s2 => s2
  | PyOutcome.raised => s

/-- Keys of the modelled ordered tree map, in iteration order (the
list is kept sorted by key, see `btSet`). -/
def btKeys (d : List (Nat × Nat)) : List Nat := d.map Prod.fst

/-- Modelled from the spec: assignment `bt[k] = v` on
`BTrees.family64.II.BTree` — the ordered tree container external to
this repository keeps entries sorted by key; modelled as sorted
insertion into an association list, replacing the value of an existing
key. -/
def btSet : List (Nat × Nat) → Nat → Nat → List (Nat × Nat)
  | [], k, v => [(k, v)]
  | (k2, v2) :: rest, k, v =>
    if k < k2 then (k, v) :: (k2, v2) :: rest
    else if k = k2 then (k, v) :: rest
    else (k2, v2) :: btSet rest k v

/-- A tree map populated by successive assignments, starting empty. -/
def btOfList (ops : List (Nat × Nat)) : List (Nat × Nat) :=
  ops.foldl (fun d kv => btSet d kv.1 kv.2) []

/-- Modelled from the spec: `bt.maxKey()` of a BTrees tree map — the
greatest key, which in the key-sorted model is the last key.  (The
source only calls it on nonempty trees, see lines 116-119.) -/
def btMaxKey : List (Nat × Nat) → Nat
  | [] => 0
  | (k, _) :: rest => if rest.isEmpty then k else btMaxKey rest

/-- Lines 116-119: the BTrees-branch `OidObjectMap_max_key(bt)` returns
`0` for an empty tree and `bt.maxKey()` otherwise. -/
def OidObjectMap_max_key_bt (bt : List (Nat × Nat)) : Nat :=
  if bt.isEmpty then 0 else btMaxKey bt

/- ### Theorems for claim C6 -/

/-- A discarded value is no longer a member (BTrees branch). -/
theorem not_mem_discard_bt (s : List Nat) (v : Nat) : v ∉ OidSet_discard_bt s v := by
  by_cases h : v ∈ s
  · simp [OidSet_discard_bt, btRemove, h, List.mem_filter]
  · simp [OidSet_discard_bt, btRemove, h]

/-- Discarding an absent value is a no-op (BTrees branch). -/
theorem discard_bt_of_not_mem (s : List Nat) (v : Nat) (h : v ∉ s) :
    OidSet_discard_bt s v = s := by
  simp [OidSet_discard_bt, btRemove, h]

/-- Membership after a discard, for the other values (BTrees branch). -/
theorem mem_discard_bt (s : List Nat) (v k : Nat) (hk : k ≠ v) :
    (k ∈ OidSet_discard_bt s v ↔ k ∈ s) := by
  by_cases h : v ∈ s
  · simp [OidSet_discard_bt, btRemove, h, List.mem_filter, hk]
  · simp [OidSet_discard_bt, btRemove, h]

/-- C6: for both set backings, `discard` removes a present value,
is a no-op (and raises nothing — the `KeyError` of the tree branch is
absorbed by the wrapper, the hash branch uses the error-free
`set.discard`) for an absent value, leaves all other values untouched,
and is idempotent. -/
theorem discard_spec :
    (∀ (S : Finset ℕ) (v : ℕ), v ∉ OidSet_discard S v) ∧
    (∀ (S : Finset ℕ) (v : ℕ), v ∉ S → OidSet_discard S v = S) ∧
    (∀ (S : Finset ℕ) (v : ℕ),
       OidSet_discard (OidSet_discard S v) v = OidSet_discard S v) ∧
    (∀ (S : Finset ℕ) (v k : ℕ), k ≠ v → (k ∈ OidSet_discard S v ↔ k ∈ S)) ∧
    (∀ (s : List Nat) (v : Nat), v ∉ OidSet_discard_bt s v) ∧
    (∀ (s : List Nat) (v : Nat), v ∉ s → OidSet_discard_bt s v = s) ∧
    (∀ (s : List Nat) (v : Nat),
       OidSet_discard_bt (OidSet_discard_bt s v) v = OidSet_discard_bt s v) ∧
    (∀ (s : List Nat) (v k : Nat), k ≠ v → (k ∈ OidSet_discard_bt s v ↔ k ∈ s)) := by
  refine ⟨fun S v => Finset.not_mem_erase v S,
    fun S v h => Finset.erase_eq_of_not_mem h,
    fun S v => Finset.erase_eq_of_not_mem (Finset.not_mem_erase v S),
    fun S v k hk => ?_,
    not_mem_discard_bt,
    discard_bt_of_not_mem,
    fun s v => discard_bt_of_not_mem _ v (not_mem_discard_bt s v),
    mem_discard_bt⟩
  simp [OidSet_discard, Finset.mem_erase, hk]

/-- C6 witness: discarding the absent value 5 from `{1, 2}` is a no-op
on both backings. -/
theorem discard_spec_witness :
    OidSet_discard ({1, 2} : Finset ℕ) 5 = {1, 2} ∧
    OidSet_discard_bt [1, 2] 5 = [1, 2] :=
  ⟨discard_spec.2.1 {1, 2} 5 (by decide),
   discard_spec.2.2.2.2.2.1 [1, 2] 5 (by decide)⟩

/- ### Theorems for claim C1 -/

/-- Every key of the tree map after an assignment is either the
assigned key or a key that was already present. -/
theorem mem_btKeys_btSet (d : List (Nat × Nat)) (k v : Nat) :
    ∀ a ∈ btKeys (btSet d k v), a = k ∨ a ∈ btKeys d := by
  induction d with
  | nil => intro a ha; simpa [btSet, btKeys] using ha
  | cons kv2 rest ih =>
    obtain ⟨k2, v2⟩ := kv2
    intro a ha
    by_cases h1 : k < k2
    · simp only [btSet, if_pos h1, btKeys, List.map_cons, List.mem_cons] at ha ⊢
      tauto
    · by_cases h2 : k = k2
      · simp only [btSet, if_neg h1, if_pos h2, btKeys, List.map_cons, List.mem_cons] at ha ⊢
        tauto
      · simp only [btSet, if_neg h1, if_neg h2, btKeys, List.map_cons, List.mem_cons] at ha ⊢
        rcases ha with h3 | h3
        · exact Or.inr (Or.inl h3)
        · rcases ih a h3 with h4 | h4
          · exact Or.inl h4
          · exact Or.inr (Or.inr h4)

/-- Assignment keeps the tree map sorted by key. -/
theorem btKeys_btSet_sorted (k v : Nat) :
    ∀ d : List (Nat × Nat), (btKeys d).Sorted (· < ·) →
      (btKeys (btSet d k v)).Sorted (· < ·) := by
  intro d
  induction d with
  | nil => intro _; simp [btSet, btKeys]
  | cons kv2 rest ih =>
    intro h
    obtain ⟨k2, v2⟩ := kv2
    have h2 : ((k2 :: btKeys rest) : List Nat).Sorted (· < ·) := h
    rcases List.sorted_cons.mp h2 with ⟨hlt, hrest⟩
    by_cases hc1 : k < k2
    · have : ((k :: k2 :: btKeys rest) : List Nat).Sorted (· < ·) := by
        refine List.sorted_cons.mpr ⟨?_, h2⟩
        intro b hb
        rcases List.mem_cons.mp hb with rfl | hb2
        · exact hc1
        · exact Nat.lt_trans hc1 (hlt b hb2)
      simpa [btSet, btKeys, hc1] using this
    · by_cases hc2 : k = k2
      · have : ((k :: btKeys rest) : List Nat).Sorted (· < ·) := by
          refine List.sorted_cons.mpr ⟨?_, hrest⟩
          intro b hb
          exact hc2 ▸ hlt b hb
        simpa [btSet, btKeys, hc1, hc2] using this
      · have hc3 : k2 < k :=
          Nat.lt_of_le_of_ne (Nat.le_of_not_lt hc1) fun heq => hc2 heq.symm
        have : ((k2 :: btKeys (btSet rest k v)) : List Nat).Sorted (· < ·) := by
          refine List.sorted_cons.mpr ⟨?_, ih hrest⟩
          intro b hb
          rcases mem_btKeys_btSet rest k v b hb with rfl | hb2
          · exact hc3
          · exact hlt b hb2
        simpa [btSet, btKeys, hc1, hc2] using this

/-- A tree map built by any sequence of assignments has its keys in
ascending order. -/
theorem btOfList_sorted (ops : List (Nat × Nat)) :
    (btKeys (btOfList ops)).Sorted (· < ·) := by
  suffices h : ∀ d, (btKeys d).Sorted (· < ·) →
      (btKeys (ops.foldl (fun d kv => btSet d kv.1 kv.2) d)).Sorted (· < ·) by
    exact h [] (by simp [btKeys])
  induction ops with
  | nil => intro d hd; exact hd
  | cons kv rest ih =>
    intro d hd
    simp only [List.foldl_cons]
    exact ih _ (btKeys_btSet_sorted kv.1 kv.2 d hd)

/-- C1 counterexample: the hash-based fallback (`dict`) iterates in
insertion order, not in ascending key order — the map populated with
keys 5, 1, 9 in that insertion order does not iterate as 1, 5, 9. -/
theorem dict_iteration_insertion_order :
    dictKeys (dictSet (dictSet (dictSet [] 5 100) 1 50) 9 200) ≠ [1, 5, 9] := by
  decide

/-- C1 (amended): full iteration of the native ordered tree backing
yields the keys in ascending numeric order for any population sequence
— in particular 5, 1, 9 iterates as 1, 5, 9 — while the hash-based
fallback (`dict`) iterates in insertion order, so the same population
iterates as 5, 1, 9 there. -/
theorem iteration_order_spec :
    (∀ ops : List (Nat × Nat), (btKeys (btOfList ops)).Sorted (· < ·)) ∧
    btKeys (btOfList [(5, 100), (1, 50), (9, 200)]) = [1, 5, 9] ∧
    dictKeys (dictSet (dictSet (dictSet [] 5 100) 1 50) 9 200) = [5, 1, 9] :=
  ⟨btOfList_sorted, by decide, by decide⟩

/- ### Theorems for claim C5 -/

/-- The starting value of a maximum fold is a lower bound of the
result. -/
theorem le_foldl_max (l : List Nat) : ∀ a : Nat, a ≤ l.foldl Nat.max a := by
  induction l with
  | nil => intro a; exact Nat.le_refl a
  | cons b t ih =>
    intro a
    simp only [List.foldl_cons]
    exact Nat.le_trans (Nat.le_max_left a b) (ih (Nat.max a b))

/-- Every folded element is a lower bound of the maximum fold. -/
theorem foldl_max_le_of_mem (l : List Nat) :
    ∀ a b : Nat, b ∈ l → b ≤ l.foldl Nat.max a := by
  induction l with
  | nil => intro a b h; exact absurd h (List.not_mem_nil b)
  | cons c t ih =>
    intro a b h
    simp only [List.foldl_cons]
    rcases List.mem_cons.mp h with rfl | h2
    · exact Nat.le_trans (Nat.le_max_right a b) (le_foldl_max t (Nat.max a b))
    · exact ih (Nat.max a c) b h2

/-- The maximum fold returns its starting value or a folded element. -/
theorem foldl_max_mem (l : List Nat) :
    ∀ a : Nat, l.foldl Nat.max a = a ∨ l.foldl Nat.max a ∈ l := by
  induction l with
  | nil => intro a; exact Or.inl rfl
  | cons b t ih =>
    intro a
    simp only [List.foldl_cons]
    rcases ih (Nat.max a b) with h | h
    · rcases Nat.le_total b a with hba | hab
      · refine Or.inl ?_
        rw [h]
        exact Nat.max_eq_left hba
      · refine Or.inr ?_
        have h2 : Nat.max a b = b := Nat.max_eq_right hab
        rw [h, h2]
        exact List.mem_cons_self b t
    · exact Or.inr (List.mem_cons_of_mem b h)

/-- On a key-sorted nonempty tree map, `btMaxKey` is a key of the map
and bounds every key. -/
theorem btMaxKey_greatest :
    ∀ bt : List (Nat × Nat), (btKeys bt).Sorted (· < ·) → bt ≠ [] →
      btMaxKey bt ∈ btKeys bt ∧ ∀ a ∈ btKeys bt, a ≤ btMaxKey bt := by
  intro bt
  induction bt with
  | nil => intro _ h; exact absurd rfl h
  | cons kv rest ih =>
    obtain ⟨k, v⟩ := kv
    intro hs _
    have hs2 : ((k :: btKeys rest) : List Nat).Sorted (· < ·) := hs
    rcases List.sorted_cons.mp hs2 with ⟨hlt, hrest⟩
    cases rest with
    | nil =>
      refine ⟨by simp [btMaxKey, btKeys], ?_⟩
      intro a ha
      have ha2 : a = k := by simpa [btKeys] using ha
      simp [btMaxKey, ha2]
    | cons kv2 rest2 =>
      rcases ih hrest (by simp) with ⟨hmem, hmax⟩
      have hstep : btMaxKey ((k, v) :: kv2 :: rest2) = btMaxKey (kv2 :: rest2) := by
        simp [btMaxKey]
      refine ⟨?_, ?_⟩
      · rw [hstep]
        exact List.mem_cons_of_mem k hmem
      · intro a ha
        rw [hstep]
        have ha2 : a ∈ (k :: btKeys (kv2 :: rest2) : List Nat) := ha
        rcases List.mem_cons.mp ha2 with rfl | h2
        · exact Nat.le_of_lt (hlt _ hmem)
        · exact hmax a h2

/-- C5: for both backings, `max_key_or_zero` returns 0 on the empty
map and the greatest key otherwise — including maps whose keys are
non-contiguous and were inserted in unsorted order (the fallback part
holds for an arbitrary insertion-ordered dict; the tree part for any
key-sorted tree, the invariant every tree built by assignments has). -/
theorem max_key_or_zero_spec :
    OidObjectMap_max_key [] = 0 ∧
    (∀ m : List (Nat × Nat), m ≠ [] →
       OidObjectMap_max_key m ∈ dictKeys m ∧
       ∀ a ∈ dictKeys m, a ≤ OidObjectMap_max_key m) ∧
    OidObjectMap_max_key_bt [] = 0 ∧
    (∀ bt : List (Nat × Nat), (btKeys bt).Sorted (· < ·) → bt ≠ [] →
       OidObjectMap_max_key_bt bt ∈ btKeys bt ∧
       ∀ a ∈ btKeys bt, a ≤ OidObjectMap_max_key_bt bt) := by
  refine ⟨rfl, fun m hm => ?_, rfl, fun bt hs hbt => ?_⟩
  · cases m with
    | nil => exact absurd rfl hm
    | cons kv rest =>
      obtain ⟨k, v⟩ := kv
      have h1 : OidObjectMap_max_key ((k, v) :: rest) =
          (dictKeys rest).foldl Nat.max k := rfl
      refine ⟨?_, ?_⟩
      · rw [h1]
        rcases foldl_max_mem (dictKeys rest) k with h | h
        · rw [h]; exact List.mem_cons_self k (dictKeys rest)
        · exact List.mem_cons_of_mem k h
      · intro a ha
        rw [h1]
        have ha2 : a ∈ (k :: dictKeys rest : List Nat) := ha
        rcases List.mem_cons.mp ha2 with rfl | h2
        · exact le_foldl_max (dictKeys rest) a
        · exact foldl_max_le_of_mem (dictKeys rest) k a h2
  · cases bt with
    | nil => exact absurd rfl hbt
    | cons kv rest =>
      have h1 : OidObjectMap_max_key_bt (kv :: rest) = btMaxKey (kv :: rest) := by
        simp [OidObjectMap_max_key_bt]
      rw [h1]
      exact btMaxKey_greatest (kv :: rest) hs (by simp)

/-- C5 witness: the greatest key of the dict `{5: 1, 9: 2, 3: 3}`
(keys inserted unsorted and non-contiguous) and of the sorted tree
`{1: 7, 4: 8}`. -/
theorem max_key_or_zero_spec_witness :
    (OidObjectMap_max_key [(5, 1), (9, 2), (3, 3)] ∈ dictKeys [(5, 1), (9, 2), (3, 3)] ∧
       ∀ a ∈ dictKeys [(5, 1), (9, 2), (3, 3)],
         a ≤ OidObjectMap_max_key [(5, 1), (9, 2), (3, 3)]) ∧
    (OidObjectMap_max_key_bt [(1, 7), (4, 8)] ∈ btKeys [(1, 7), (4, 8)] ∧
       ∀ a ∈ btKeys [(1, 7), (4, 8)], a ≤ OidObjectMap_max_key_bt [(1, 7), (4, 8)]) :=
  ⟨max_key_or_zero_spec.2.1 [(5, 1), (9, 2), (3, 3)] (by decide),
   max_key_or_zero_spec.2.2.2 [(1, 7), (4, 8)] (by decide) (by decide)⟩
